import Mathlib

/-!
Shallow embedding of the Octo-Vision keyword scanner (`src/scanner.py`).

Texts and keywords are modelled as `List Char`; character offsets are `Nat`.
`KeywordScanner.scan_text` is embedded as `scan_text`, the CSV keyword loader
as `load_keywords_from_csv`, and the batch driver `scan_multiple_texts` as a
function over association-list records (Python dictionaries).
-/

namespace OctoVision

/-- Case folding applied to one character; models Python `str.lower()` /
`re.IGNORECASE` comparison on the character level. -/
def lowerChar (c : Char) : Char := c.toLower

/-- Case folding applied to a whole string (`str.lower()`). -/
def lowerStr (s : List Char) : List Char := s.map lowerChar

/-- The string actually compared during search: the original when the scan is
case sensitive, the case-folded string otherwise.  Folding is per character,
so it preserves length and hence all character offsets. -/
def fold (caseSensitive : Bool) (s : List Char) : List Char :=
  if caseSensitive then s else lowerStr s

/-- `startsWith p s` holds when `p` is a literal prefix of `s`. -/
def startsWith : List Char → List Char → Bool
  | [], _ => true
  | _ :: _, [] => false
  | a :: as, b :: bs => a == b && startsWith as bs

/-- Start offsets of the non-overlapping left-to-right occurrences of `kw` in
the remaining text, where the remaining text begins at absolute offset `pos`.
This is the enumeration produced by `re.compile(re.escape(kw)).finditer`: after
a match the search resumes at the match's end; an empty pattern matches at
every offset including the end of the text. -/
def occFrom (kw : List Char) : List Char → Nat → List Nat
  | [], pos => if kw.isEmpty then [pos] else []
  | c :: rest, pos =>
    if kw.isEmpty then
      pos :: occFrom kw rest (pos + 1)
    else if startsWith kw (c :: rest) then
      pos :: occFrom kw (rest.drop (kw.length - 1)) (pos + kw.length)
    else
      occFrom kw rest (pos + 1)
termination_by t _ => t.length
decreasing_by
  all_goals simp [List.length_drop]
  all_goals omega

/-- All match start offsets for `kw` in `text` under the scanner's case rule:
`pattern.finditer(text)` with `pattern = re.compile(re.escape(kw), flags)`. -/
def findOccurrences (caseSensitive : Bool) (kw text : List Char) : List Nat :=
  occFrom (fold caseSensitive kw) (fold caseSensitive text) 0

/-- Every offset of `text` at which `kw` literally occurs (after the same case
folding the scanner applies).  This is the specification-side notion of "the
true 0-based character offset of an occurrence in the original, unmodified
text"; it is independent of the scanner's non-overlapping enumeration. -/
def occurrencesAll (caseSensitive : Bool) (kw text : List Char) : List Nat :=
  (List.range text.length).filter
    (fun i => startsWith (fold caseSensitive kw) ((fold caseSensitive text).drop i))

/-- Python slice `s[a:b]` for already-clamped bounds `0 ≤ a ≤ b ≤ len s`. -/
def slicePy (s : List Char) (a b : Nat) : List Char := (s.drop a).take (b - a)

/-- `s.replace('\n', ' ')`. -/
def replaceNewlines (s : List Char) : List Char :=
  s.map (fun c => if c == '\n' then ' ' else c)

/-- `s.strip()`: remove leading and trailing whitespace. -/
def stripStr (s : List Char) : List Char :=
  ((s.dropWhile Char.isWhitespace).reverse.dropWhile Char.isWhitespace).reverse

/-- The literal `"..."` wrapped around every context snippet. -/
def dots : List Char := ['.', '.', '.']

/-- The context window for a match spanning offsets `[mstart, mend)`:
`text[max(0, mstart - 50) : min(len(text), mend + 50)]` with newlines replaced
by spaces and surrounding whitespace stripped.  `Nat` subtraction is truncated,
so `mstart - 50` is exactly Python's `max(0, mstart - 50)`. -/
def mkContext (text : List Char) (mstart mend : Nat) : List Char :=
  stripStr (replaceNewlines (slicePy text (mstart - 50) (min text.length (mend + 50))))

/-- One entry of `match_details`. -/
structure MatchDetail where
  keyword : List Char
  position : Nat
  context : List Char
deriving DecidableEq, Repr

/-- The `match_details` record synthesised for one occurrence of `kw` starting
at `pos`: the match ends at `pos + kw.length`, and the context is rendered as
`f"...{context}..."`. -/
def mkDetail (text kw : List Char) (pos : Nat) : MatchDetail :=
  { keyword := kw
    position := pos
    context := dots ++ mkContext text pos (pos + kw.length) ++ dots }

/-- The result dictionary returned by `KeywordScanner.scan_text`. -/
structure ScanResult where
  matches_found : Bool
  matched_keywords : List (List Char)
  match_count : Nat
  total_occurrences : Nat
  match_details : List MatchDetail
deriving DecidableEq, Repr

/-- The zero-value result returned when the text or the keyword list is empty. -/
def zeroResult : ScanResult :=
  { matches_found := false
    matched_keywords := []
    match_count := 0
    total_occurrences := 0
    match_details := [] }

/-- Loop state of `scan_text`: the `matched_keywords` set (modelled as a
duplicate-free list in first-insertion order — Python's `set` is unordered, and
the order is irrelevant because the result is sorted), the running
`total_occurrences`, and the accumulated `match_details`. -/
structure ScanAcc where
  matched : List (List Char)
  total : Nat
  details : List MatchDetail
deriving DecidableEq, Repr

/-- `matched_keywords.add(kw)` on the list model of the set. -/
def insertKeyword (l : List (List Char)) (kw : List Char) : List (List Char) :=
  if kw ∈ l then l else l ++ [kw]

/-- Python string comparison `a <= b`: lexicographic by character code point.
`Char.toNat` is the code point. -/
def lexLe : List Char → List Char → Bool
  | [], _ => true
  | _ :: _, [] => false
  | a :: as, b :: bs =>
    if a.toNat < b.toNat then true
    else if b.toNat < a.toNat then false
    else lexLe as bs

/-- The propositional form of `lexLe`, used as the sorting relation. -/
def kwLe (a b : List Char) : Prop := lexLe a b = true

instance : DecidableRel kwLe := fun a b => inferInstanceAs (Decidable (lexLe a b = true))

/-- `sorted(list(matched_keywords))`: sort ascending by the original keyword
string. -/
def sortKeywords (l : List (List Char)) : List (List Char) :=
  l.insertionSort kwLe

/-- `re.compile(re.escape(keyword), flags)`.  Escaping makes the pattern a
literal, so compilation always succeeds; the value is the keyword itself.  The
`except` handler of the source is nevertheless translated (`fallbackScan`) and
is selected exactly when this returns `Except.error`. -/
def tryCompile (kw : List Char) : Except (List Char) (List Char) :=
  Except.ok kw

/-- The `except` fallback of `scan_text` (source lines 128-165): a plain
substring search that counts every non-overlapping occurrence
(`text.count(keyword)`) but records only the first occurrence's offset and
context.  In the case-insensitive branch the offset is found in the lowered
text while the context is cut from the original text. -/
def fallbackScan (caseSensitive : Bool) (text : List Char) (acc : ScanAcc)
    (kw : List Char) : ScanAcc :=
  if caseSensitive then
    match (occFrom kw text 0).head? with
    | none => acc
    | some index =>
      { matched := insertKeyword acc.matched kw
        total := acc.total + (occFrom kw text 0).length
        details := acc.details ++
          [{ keyword := kw
             position := index
             context := dots ++ mkContext text index (index + kw.length) ++ dots }] }
  else
    match (occFrom (lowerStr kw) (lowerStr text) 0).head? with
    | none => acc
    | some index =>
      { matched := insertKeyword acc.matched kw
        total := acc.total + (occFrom (lowerStr kw) (lowerStr text) 0).length
        details := acc.details ++
          [{ keyword := kw
             position := index
             context := dots ++ mkContext text index (index + kw.length) ++ dots }] }

/-- The body of `scan_text`'s per-keyword loop: the `try` branch compiles the
escaped literal pattern and enumerates all its matches, adding the keyword to
the matched set, the occurrence count to the total, and a detail record for
the first 3 occurrences; the `except` branch falls back to `fallbackScan`. -/
def scanKeyword (caseSensitive : Bool) (text : List Char) (acc : ScanAcc)
    (kw : List Char) : ScanAcc :=
  match tryCompile kw with
  | Except.ok _ =>
    let occs := findOccurrences caseSensitive kw text
    if occs.isEmpty then acc
    else
      { matched := insertKeyword acc.matched kw
        total := acc.total + occs.length
        details := acc.details ++ (occs.take 3).map (mkDetail text kw) }
  | Except.error _ => fallbackScan caseSensitive text acc kw

/-- `KeywordScanner.scan_text` (source lines 82-173). -/
def scan_text (caseSensitive : Bool) (keywords : List (List Char))
    (text : List Char) : ScanResult :=
  if text.isEmpty || keywords.isEmpty then zeroResult
  else
    let acc := keywords.foldl (scanKeyword caseSensitive text) ⟨[], 0, []⟩
    { matches_found := decide (0 < acc.matched.length)
      matched_keywords := sortKeywords acc.matched
      match_count := acc.matched.length
      total_occurrences := acc.total
      match_details := acc.details }

/-! ### Keyword loading (`KeywordScanner.load_keywords_from_csv`, lines 26-71)

The loader feeds the upload to `pandas.read_csv` and keeps the first column.
The embedding models `read_csv` on the scanner's one-column tabular format
(one cell per line, no separators or quoting): blank lines are skipped
(`skip_blank_lines=True`), the first remaining line is consumed as the column
header (the default `header='infer'`), and the following lines are the rows of
the single column, so a parsed frame always has exactly one column.
`.dropna()` removes exactly the cells `read_csv` reads as missing: with the
default `na_filter`/`keep_default_na`, those whose raw text equals one of the
default NA sentinels (`naStrings`).  `astype(str)` is modelled as the
identity, which is its behaviour on an object-dtype column (at least one kept
cell that is not a numeric/boolean token); when every kept cell is such a
token, pandas materialises the column numerically and `astype(str)`
re-renders the cells (so `"007"` comes back as `"7"`).  That re-rendering
changes the returned strings but never the loader's error/ok outcome: the
checks before it are dtype-independent, a re-rendered cell is never empty or
whitespace-only, and a kept raw cell is likewise never whitespace-only when
it is a numeric/boolean token — so theorems below pin error behaviour on
every upload, and pin the returned cell values only where they are
rendering-independent. -/

/-- Split a string on `'\n'`; `"a\nb"` becomes `["a", "b"]`. -/
def splitLines : List Char → List (List Char)
  | [] => [[]]
  | c :: rest =>
    let r := splitLines rest
    if c == '\n' then [] :: r
    else
      match r with
      | [] => [[c]]
      | l :: ls => (c :: l) :: ls

/-- The non-blank lines of the upload: what `read_csv` parses, header first. -/
def nonBlankLines (content : List Char) : List (List Char) :=
  (splitLines content).filter (fun l => !l.isEmpty)

/-- The data rows of the parsed frame: every non-blank line after the header
row that `read_csv` consumes. -/
def parsedRows (content : List Char) : List (List Char) :=
  (nonBlankLines content).drop 1

/-- The default NA sentinels of `pandas.read_csv` (`STR_NA_VALUES`): a cell
whose raw text equals one of these is read as a missing value.  Matching is
exact — no surrounding whitespace is stripped first.  (The empty string is in
the set but cannot occur as a cell here: blank lines are skipped.) -/
def naStrings : List (List Char) :=
  ["".data, "#N/A".data, "#N/A N/A".data, "#NA".data, "-1.#IND".data,
   "-1.#QNAN".data, "-NaN".data, "-nan".data, "1.#IND".data, "1.#QNAN".data,
   "<NA>".data, "N/A".data, "NA".data, "NULL".data, "NaN".data, "None".data,
   "n/a".data, "nan".data, "null".data]

/-- `df.iloc[:, 0].dropna()`: the first-column cells that are not read as
missing values. -/
def dropNaCells (cells : List (List Char)) : List (List Char) :=
  cells.filter (fun c => ¬ c ∈ naStrings)

/-- `[k.strip() for k in keywords if k.strip()]` applied to
`df.iloc[:, 0].dropna().astype(str)`, with `astype(str)` as the object-dtype
identity rendering (see the section comment). -/
def trimmedKeywords (content : List Char) : List (List Char) :=
  (dropNaCells (parsedRows content)).filterMap
    (fun k => let s := stripStr k; if s.isEmpty then none else some s)

/-- The distinct `ValueError` messages the loader can raise.  Each constructor
stands for one user-facing message string of the source. -/
inductive LoadError where
  /-- "CSV file is empty. Please upload a file with at least one keyword." -/
  | emptyContent
  /-- "CSV file contains no data. Please add at least one keyword." -/
  | noData
  /-- "CSV file contains no valid keywords. Please check your file format." -/
  | noValidKeywords
  /-- "CSV file has no columns. Please check your file format." -/
  | noColumns
  /-- "CSV file is empty or has no data. ..." (`pandas.errors.EmptyDataError`) -/
  | emptyData
deriving DecidableEq, Repr

/-- `KeywordScanner.load_keywords_from_csv` (source lines 26-71) on the
one-column tabular format. -/
def load_keywords_from_csv (content : List Char) : Except LoadError (List (List Char)) :=
  if content.isEmpty || (stripStr content).isEmpty then
    Except.error LoadError.emptyContent
  else
    match nonBlankLines content with
    | [] =>
      -- `read_csv` finds no columns to parse: `pandas.errors.EmptyDataError`.
      -- Unreachable: a non-blank upload contains a non-whitespace character,
      -- hence a non-blank line.
      Except.error LoadError.emptyData
    | _header :: rows =>
      if rows.isEmpty then Except.error LoadError.noData
      else
        -- the one-column frame always has one column, so `len(df.columns) > 0`
        if (1 : Nat) > 0 then
          let keywords := (dropNaCells rows).filterMap
            (fun k => let s := stripStr k; if s.isEmpty then none else some s)
          if keywords.isEmpty then Except.error LoadError.noValidKeywords
          else Except.ok keywords
        else Except.error LoadError.noColumns

/-! ### Batch driver (`KeywordScanner.scan_multiple_texts`, lines 175-201)

Input documents are Python dictionaries with string values (`Dict[str, str]`);
the output records merge a document with the scan-result dictionary, whose
values are heterogeneous.  Dictionaries are modelled as association lists in
insertion order; Python dictionaries have unique keys. -/

/-- A Python value appearing in an output record. -/
inductive PyVal where
  | str (s : List Char)
  | bool (b : Bool)
  | int (n : Nat)
  | strList (l : List (List Char))
  | detailList (l : List MatchDetail)
deriving DecidableEq, Repr

/-- `k in d` for a dictionary modelled as an association list. -/
def hasKey (d : List (String × α)) (k : String) : Bool :=
  d.any (fun p => p.1 == k)

/-- `d.get(k)`: the value at the first occurrence of key `k`, if any. -/
def lookupKey (d : List (String × α)) (k : String) : Option α :=
  (d.find? (fun p => p.1 == k)).map (fun p => p.2)

/-- `d[k] = v` on an insertion-ordered dictionary: update the value in place
when the key exists, append the binding otherwise. -/
def setKey (d : List (String × PyVal)) (k : String) (v : PyVal) : List (String × PyVal) :=
  if hasKey d k then d.map (fun p => if p.1 == k then (k, v) else p)
  else d ++ [(k, v)]

/-- `{**a, **b}`: the keys of `a` in order with values overridden by `b`,
followed by the keys of `b` absent from `a` in `b`'s order. -/
def dictMerge (a b : List (String × PyVal)) : List (String × PyVal) :=
  b.foldl (fun d p => setKey d p.1 p.2) a

/-- The scan-result dictionary as key/value pairs, in the source's insertion
order. -/
def resultFields (r : ScanResult) : List (String × PyVal) :=
  [("matches_found", PyVal.bool r.matches_found),
   ("matched_keywords", PyVal.strList r.matched_keywords),
   ("match_count", PyVal.int r.match_count),
   ("total_occurrences", PyVal.int r.total_occurrences),
   ("match_details", PyVal.detailList r.match_details)]

/-- A document as handed over by the fetch layer: a dictionary with string
values. -/
def injectDoc (info : List (String × List Char)) : List (String × PyVal) :=
  info.map (fun p => (p.1, PyVal.str p.2))

/-- `text_info.get('content', '')`. -/
def contentOf (info : List (String × List Char)) : List Char :=
  (lookupKey info "content").getD []

/-- The skip test of the batch loop: `'error' in text_info or not
text_info.get('content')` — for string values, falsy means missing or empty. -/
def skipDoc (info : List (String × List Char)) : Bool :=
  hasKey info "error" || (contentOf info).isEmpty

/-- The body of the batch loop: skip a document with an error marker or
falsy content, scan the rest, keep only those whose scan found a match,
appending `{**text_info, **scan_result}`. -/
def batchStep (caseSensitive : Bool) (keywords : List (List Char))
    (results : List (List (String × PyVal))) (info : List (String × List Char)) :
    List (List (String × PyVal)) :=
  if skipDoc info then results
  else
    let scanResult := scan_text caseSensitive keywords (contentOf info)
    if scanResult.matches_found then
      results ++ [dictMerge (injectDoc info) (resultFields scanResult)]
    else results

/-- `KeywordScanner.scan_multiple_texts` (source lines 175-201). -/
def scan_multiple_texts (caseSensitive : Bool) (keywords : List (List Char))
    (texts : List (List (String × List Char))) : List (List (String × PyVal)) :=
  texts.foldl (batchStep caseSensitive keywords) []

/-- The per-document behaviour of the batch driver, stated as a record of the
specification: a document is omitted when it carries an error marker, has
missing or empty content, or its scan reports no match; otherwise it yields
the union of its fields with the scan-result fields, the scan result winning
on key collisions. -/
def batchEntry (caseSensitive : Bool) (keywords : List (List Char))
    (info : List (String × List Char)) : Option (List (String × PyVal)) :=
  if skipDoc info then none
  else
    let scanResult := scan_text caseSensitive keywords (contentOf info)
    if scanResult.matches_found then
      some (dictMerge (injectDoc info) (resultFields scanResult))
    else none

/-! ### Exception-aware variants

The scan engine and the batch driver are re-stated in an `Except` monad that
makes Python's exception channel explicit.  The only fallible operation in
their bodies is the pattern compilation, and it is wrapped in `try/except`
whose handler returns normally, so the error channel is provably never
reached. -/

/-- The per-keyword loop body with the exception channel explicit: a failure
of `tryCompile` is caught by the `except` handler, which returns normally with
the fallback result. -/
def scanKeywordExc (caseSensitive : Bool) (text : List Char) (acc : ScanAcc)
    (kw : List Char) : Except (List Char) ScanAcc :=
  match tryCompile kw with
  | Except.ok _ =>
    let occs := findOccurrences caseSensitive kw text
    if occs.isEmpty then Except.ok acc
    else
      Except.ok
        { matched := insertKeyword acc.matched kw
          total := acc.total + occs.length
          details := acc.details ++ (occs.take 3).map (mkDetail text kw) }
  | Except.error _ => Except.ok (fallbackScan caseSensitive text acc kw)

/-- `scan_text` with the exception channel explicit. -/
def scan_text_exc (caseSensitive : Bool) (keywords : List (List Char))
    (text : List Char) : Except (List Char) ScanResult :=
  if text.isEmpty || keywords.isEmpty then Except.ok zeroResult
  else do
    let acc ← keywords.foldlM (scanKeywordExc caseSensitive text) (⟨[], 0, []⟩ : ScanAcc)
    Except.ok
      { matches_found := decide (0 < acc.matched.length)
        matched_keywords := sortKeywords acc.matched
        match_count := acc.matched.length
        total_occurrences := acc.total
        match_details := acc.details }

/-- The batch loop body with the exception channel explicit: any exception
escaping a `scan_text` call would propagate out of the loop. -/
def batchStepExc (caseSensitive : Bool) (keywords : List (List Char))
    (results : List (List (String × PyVal))) (info : List (String × List Char)) :
    Except (List Char) (List (List (String × PyVal))) :=
  if skipDoc info then Except.ok results
  else do
    let scanResult ← scan_text_exc caseSensitive keywords (contentOf info)
    if scanResult.matches_found then
      Except.ok (results ++ [dictMerge (injectDoc info) (resultFields scanResult)])
    else Except.ok results

/-- `scan_multiple_texts` with the exception channel explicit (see
`batchStepExc`). -/
def scan_multiple_texts_exc (caseSensitive : Bool) (keywords : List (List Char))
    (texts : List (List (String × List Char))) :
    Except (List Char) (List (List (String × PyVal))) :=
  texts.foldlM (batchStepExc caseSensitive keywords) []

/-! ### The sorting relation -/

theorem lexLe_total (a b : List Char) : lexLe a b = true ∨ lexLe b a = true := by
  induction a generalizing b with
  | nil => left; rfl
  | cons x as ih =>
    cases b with
    | nil => right; rfl
    | cons y bs =>
      by_cases h1 : x.toNat < y.toNat
      · left; simp [lexLe, h1]
      · by_cases h2 : y.toNat < x.toNat
        · right; simp [lexLe, h2]
        · rcases ih bs with h | h
          · left; simp [lexLe, h1, h2, h]
          · right; simp [lexLe, h1, h2, h]

theorem lexLe_trans (a b c : List Char) :
    lexLe a b = true → lexLe b c = true → lexLe a c = true := by
  induction a generalizing b c with
  | nil => intro _ _; rfl
  | cons x as ih =>
    intro hab hbc
    cases b with
    | nil => simp [lexLe] at hab
    | cons y bs =>
      cases c with
      | nil => simp [lexLe] at hbc
      | cons z cs =>
        simp only [lexLe] at hab hbc ⊢
        split_ifs at hab hbc ⊢ <;>
          first
            | rfl
            | (exact ih bs cs hab hbc)
            | (exfalso; omega)

instance : IsTotal (List Char) kwLe := ⟨fun a b => lexLe_total a b⟩

instance : IsTrans (List Char) kwLe := ⟨fun a b c hab hbc => lexLe_trans a b c hab hbc⟩

theorem sortKeywords_sorted (l : List (List Char)) : List.Sorted kwLe (sortKeywords l) :=
  List.sorted_insertionSort kwLe l

theorem sortKeywords_perm (l : List (List Char)) : (sortKeywords l).Perm l :=
  List.perm_insertionSort kwLe l

/-! ### Context helpers -/

theorem mem_of_mem_dropWhile {p : Char → Bool} {c : Char} {s : List Char}
    (h : c ∈ s.dropWhile p) : c ∈ s := by
  induction s with
  | nil => simp at h
  | cons a as ih =>
    by_cases hp : p a
    · simp only [List.dropWhile_cons, hp] at h
      exact List.mem_cons_of_mem a (ih (by simpa using h))
    · simp only [List.dropWhile_cons, hp] at h
      simpa using h

theorem mem_of_mem_stripStr {c : Char} {s : List Char} (h : c ∈ stripStr s) : c ∈ s := by
  unfold stripStr at h
  rw [List.mem_reverse] at h
  have h1 := mem_of_mem_dropWhile h
  rw [List.mem_reverse] at h1
  exact mem_of_mem_dropWhile h1

theorem mem_replaceNewlines {c : Char} {s : List Char} (h : c ∈ replaceNewlines s) :
    ∃ c' ∈ s, c = (if c' == '\n' then ' ' else c') := by
  rcases List.mem_map.mp h with ⟨c', hc', rfl⟩
  exact ⟨c', hc', rfl⟩

theorem ne_newline_of_mem_replaceNewlines {c : Char} {s : List Char}
    (h : c ∈ replaceNewlines s) : c ≠ '\n' := by
  rcases mem_replaceNewlines h with ⟨c', _, rfl⟩
  by_cases hc : c' == '\n' <;> simp [hc]
  intro hc'
  exact hc (by simp [hc'])

theorem mem_mkContext {c : Char} {text : List Char} {a b : Nat}
    (h : c ∈ mkContext text a b) :
    ∃ c' ∈ slicePy text (a - 50) (min text.length (b + 50)),
      c = (if c' == '\n' then ' ' else c') := by
  unfold mkContext at h
  exact mem_replaceNewlines (mem_of_mem_stripStr h)

theorem ne_newline_of_mem_mkContext {c : Char} {text : List Char} {a b : Nat}
    (h : c ∈ mkContext text a b) : c ≠ '\n' := by
  unfold mkContext at h
  exact ne_newline_of_mem_replaceNewlines (mem_of_mem_stripStr h)

/-! ### The matched-keyword set -/

theorem mem_insertKeyword {l : List (List Char)} {kw kw' : List Char} :
    kw' ∈ insertKeyword l kw ↔ kw' ∈ l ∨ kw' = kw := by
  unfold insertKeyword
  by_cases h : kw ∈ l
  · simp only [if_pos h]
    constructor
    · exact fun hm => Or.inl hm
    · rintro (hm | rfl)
      · exact hm
      · exact h
  · simp [if_neg h]

theorem nodup_insertKeyword {l : List (List Char)} {kw : List Char} (h : l.Nodup) :
    (insertKeyword l kw).Nodup := by
  unfold insertKeyword
  by_cases hm : kw ∈ l
  · simpa [hm] using h
  · simp [hm, List.nodup_append, h]

theorem length_insertKeyword_le {l : List (List Char)} {kw : List Char} :
    (insertKeyword l kw).length ≤ l.length + 1 := by
  unfold insertKeyword
  by_cases hm : kw ∈ l <;> simp [hm]

/-! ### Properties of the occurrence enumeration -/

theorem occFrom_ge (K : List Char) :
    ∀ (T : List Char) (s : Nat), ∀ q ∈ occFrom K T s, s ≤ q := by
  intro T s
  induction T, s using occFrom.induct K with
  | case1 pos hK =>
    intro q hq
    simp [occFrom, hK] at hq
    omega
  | case2 pos hK =>
    intro q hq
    simp [occFrom, hK] at hq
  | case3 c rest pos hK ih =>
    intro q hq
    simp only [occFrom, if_pos hK, List.mem_cons] at hq
    rcases hq with rfl | hq
    · exact Nat.le_refl _
    · exact Nat.le_of_succ_le (ih q hq)
  | case4 c rest pos hK hsw ih =>
    intro q hq
    simp only [occFrom, if_neg hK, if_pos hsw, List.mem_cons] at hq
    rcases hq with rfl | hq
    · exact Nat.le_refl _
    · have := ih q hq
      omega
  | case5 c rest pos hK hsw ih =>
    intro q hq
    simp only [occFrom, if_neg hK, if_neg hsw] at hq
    exact Nat.le_of_succ_le (ih q hq)

theorem occFrom_sound (K : List Char) (hne : K ≠ []) :
    ∀ (T : List Char) (s : Nat), ∀ q ∈ occFrom K T s,
      ∃ d, q = s + d ∧ startsWith K (T.drop d) = true ∧ d < T.length := by
  have hK : ¬ K.isEmpty = true := by simpa using hne
  have hKlen : 1 ≤ K.length := List.length_pos.mpr hne
  intro T s
  induction T, s using occFrom.induct K with
  | case1 pos h => exact absurd h hK
  | case2 pos h =>
    intro q hq
    simp [occFrom, hK] at hq
  | case3 c rest pos h ih => exact absurd h hK
  | case4 c rest pos h hsw ih =>
    intro q hq
    simp only [occFrom, if_neg hK, if_pos hsw, List.mem_cons] at hq
    rcases hq with rfl | hq
    · exact ⟨0, by omega, by simpa using hsw, by simp⟩
    · rcases ih q hq with ⟨d', hqd, hstart, hlt⟩
      refine ⟨K.length + d', by omega, ?_, ?_⟩
      · have hdrop : (c :: rest).drop (K.length + d')
            = (rest.drop (K.length - 1)).drop d' := by
          have h1 : K.length + d' = (K.length - 1 + d') + 1 := by omega
          rw [h1, List.drop_succ_cons, List.drop_drop]
        rw [hdrop]
        exact hstart
      · have := List.length_drop (K.length - 1) rest
        simp only [List.length_cons]
        omega
  | case5 c rest pos h hsw ih =>
    intro q hq
    simp only [occFrom, if_neg hK, if_neg hsw] at hq
    rcases ih q hq with ⟨d', hqd, hstart, hlt⟩
    refine ⟨d' + 1, by omega, ?_, ?_⟩
    · rw [List.drop_succ_cons]
      exact hstart
    · simp only [List.length_cons]
      omega

theorem occFrom_complete (K : List Char) (hne : K ≠ []) :
    ∀ (T : List Char) (s : Nat),
      (∃ d, startsWith K (T.drop d) = true ∧ d < T.length) →
      occFrom K T s ≠ [] := by
  have hK : ¬ K.isEmpty = true := by simpa using hne
  intro T s
  induction T, s using occFrom.induct K with
  | case1 pos h => exact absurd h hK
  | case2 pos h =>
    rintro ⟨d, _, hd⟩
    simp at hd
  | case3 c rest pos h ih => exact absurd h hK
  | case4 c rest pos h hsw ih =>
    intro _
    simp [occFrom, hne, hsw]
  | case5 c rest pos h hsw ih =>
    rintro ⟨d, hstart, hd⟩
    cases d with
    | zero => exact absurd hstart (by simpa using hsw)
    | succ d' =>
      rw [List.drop_succ_cons] at hstart
      have hrec := ih ⟨d', hstart, by simp at hd; omega⟩
      simpa [occFrom, hne, hsw] using hrec

theorem occFrom_tail_ge (K : List Char) (hne : K ≠ []) :
    ∀ (T : List Char) (s : Nat) (q : Nat) (qs : List Nat),
      occFrom K T s = q :: qs → ∀ r ∈ qs, q + K.length ≤ r := by
  have hK : ¬ K.isEmpty = true := by simpa using hne
  intro T s
  induction T, s using occFrom.induct K with
  | case1 pos h => exact absurd h hK
  | case2 pos h =>
    intro q qs hq
    simp [occFrom, hK] at hq
  | case3 c rest pos h ih => exact absurd h hK
  | case4 c rest pos h hsw ih =>
    intro q qs hq r hr
    simp only [occFrom, if_neg hK, if_pos hsw, List.cons.injEq] at hq
    rcases hq with ⟨rfl, rfl⟩
    exact occFrom_ge K _ _ r hr
  | case5 c rest pos h hsw ih =>
    intro q qs hq r hr
    simp only [occFrom, if_neg hK, if_neg hsw] at hq
    exact ih q qs hq r hr

/-- If `kw` has exactly one literal occurrence in `T` (start offset `p`), the
scanner's non-overlapping enumeration is exactly `[p]`. -/
theorem occFrom_eq_single (K : List Char) (hne : K ≠ []) (T : List Char) (p : Nat)
    (h : (List.range T.length).filter (fun d => startsWith K (T.drop d)) = [p]) :
    occFrom K T 0 = [p] := by
  have hKlen : 1 ≤ K.length := List.length_pos.mpr hne
  have hmem : ∀ d, d < T.length → startsWith K (T.drop d) = true → d = p := by
    intro d hd hsw
    have hdm : d ∈ (List.range T.length).filter (fun d => startsWith K (T.drop d)) := by
      simp [List.mem_filter, List.mem_range, hd, hsw]
    rw [h] at hdm
    simpa using hdm
  have hp : startsWith K (T.drop p) = true ∧ p < T.length := by
    have hpm : p ∈ (List.range T.length).filter (fun d => startsWith K (T.drop d)) := by
      rw [h]; simp
    simp only [List.mem_filter, List.mem_range] at hpm
    exact ⟨hpm.2, hpm.1⟩
  have hnonnil : occFrom K T 0 ≠ [] :=
    occFrom_complete K hne T 0 ⟨p, hp.1, hp.2⟩
  rcases hq : occFrom K T 0 with _ | ⟨q, qs⟩
  · exact absurd hq hnonnil
  · have hqmem : q ∈ occFrom K T 0 := by rw [hq]; simp
    rcases occFrom_sound K hne T 0 q hqmem with ⟨d, hqd, hsw, hdlt⟩
    have hdq : d = p := hmem d hdlt hsw
    have hqp : q = p := by omega
    have hqs : qs = [] := by
      cases qs with
      | nil => rfl
      | cons r rs =>
        exfalso
        have hrmem : r ∈ occFrom K T 0 := by rw [hq]; simp
        rcases occFrom_sound K hne T 0 r hrmem with ⟨dr, hrd, hswr, hdrlt⟩
        have hdr : dr = p := hmem dr hdrlt hswr
        have hge := occFrom_tail_ge K hne T 0 q (r :: rs) hq r (by simp)
        omega
    rw [hqs, hqp]

/-- If `kw` has no literal occurrence in `T`, the enumeration is empty. -/
theorem occFrom_eq_nil (K : List Char) (hne : K ≠ []) (T : List Char)
    (h : (List.range T.length).filter (fun d => startsWith K (T.drop d)) = []) :
    occFrom K T 0 = [] := by
  rw [List.eq_nil_iff_forall_not_mem]
  intro q hq
  rcases occFrom_sound K hne T 0 q hq with ⟨d, _, hsw, hdlt⟩
  have hdm : d ∈ (List.range T.length).filter (fun d => startsWith K (T.drop d)) := by
    simp [List.mem_filter, List.mem_range, hdlt, hsw]
  rw [h] at hdm
  simp at hdm

/-! ### Bridging `occurrencesAll` and `findOccurrences` -/

theorem fold_length (caseSensitive : Bool) (s : List Char) :
    (fold caseSensitive s).length = s.length := by
  cases caseSensitive <;> simp [fold, lowerStr]

theorem fold_ne_nil {caseSensitive : Bool} {s : List Char} (h : s ≠ []) :
    fold caseSensitive s ≠ [] := by
  intro hc
  apply h
  have := fold_length caseSensitive s
  rw [hc] at this
  exact List.length_eq_zero.mp this.symm

theorem occurrencesAll_eq_filter (caseSensitive : Bool) (kw text : List Char) :
    occurrencesAll caseSensitive kw text
      = (List.range (fold caseSensitive text).length).filter
          (fun d => startsWith (fold caseSensitive kw) ((fold caseSensitive text).drop d)) := by
  rw [occurrencesAll, fold_length]

/-- The scanner finds exactly the unique literal occurrence. -/
theorem findOccurrences_eq_single {caseSensitive : Bool} {kw text : List Char} {p : Nat}
    (hkw : kw ≠ []) (h : occurrencesAll caseSensitive kw text = [p]) :
    findOccurrences caseSensitive kw text = [p] := by
  rw [occurrencesAll_eq_filter] at h
  exact occFrom_eq_single _ (fold_ne_nil hkw) _ p h

/-- A keyword with no literal occurrence produces no match. -/
theorem findOccurrences_eq_nil {caseSensitive : Bool} {kw text : List Char}
    (htext : text ≠ []) (h : occurrencesAll caseSensitive kw text = []) :
    findOccurrences caseSensitive kw text = [] := by
  have hkw : kw ≠ [] := by
    intro hk
    subst hk
    have hlen : 0 < text.length := List.length_pos.mpr htext
    have h0 : 0 ∈ occurrencesAll caseSensitive [] text := by
      rw [occurrencesAll]
      rw [List.mem_filter]
      refine ⟨List.mem_range.mpr hlen, ?_⟩
      cases caseSensitive <;> simp [fold, lowerStr, startsWith]
    rw [h] at h0
    simp at h0
  rw [occurrencesAll_eq_filter] at h
  exact occFrom_eq_nil _ (fold_ne_nil hkw) _ h

/-! ### Characterising the scan loop -/

theorem isEmpty_false_of_ne_nil {α : Type} {l : List α} (h : l ≠ []) :
    l.isEmpty = false := by
  cases l with
  | nil => exact absurd rfl h
  | cons a as => rfl

theorem scanKeyword_def (caseSensitive : Bool) (text : List Char) (acc : ScanAcc)
    (kw : List Char) :
    scanKeyword caseSensitive text acc kw =
      if (findOccurrences caseSensitive kw text).isEmpty then acc
      else
        { matched := insertKeyword acc.matched kw
          total := acc.total + (findOccurrences caseSensitive kw text).length
          details := acc.details
            ++ ((findOccurrences caseSensitive kw text).take 3).map (mkDetail text kw) } := rfl

theorem foldl_scan_total (caseSensitive : Bool) (text : List Char) :
    ∀ (kws : List (List Char)) (acc : ScanAcc),
      (kws.foldl (scanKeyword caseSensitive text) acc).total
        = acc.total
            + (kws.map (fun kw => (findOccurrences caseSensitive kw text).length)).sum := by
  intro kws
  induction kws with
  | nil => intro acc; simp
  | cons kw kws ih =>
    intro acc
    rw [List.foldl_cons, scanKeyword_def]
    by_cases h : (findOccurrences caseSensitive kw text).isEmpty
    · rw [if_pos h, ih]
      have h0 : findOccurrences caseSensitive kw text = [] := by
        simpa using h
      simp [h0]
    · rw [if_neg h, ih]
      simp
      omega

theorem foldl_scan_details (caseSensitive : Bool) (text : List Char) :
    ∀ (kws : List (List Char)) (acc : ScanAcc),
      (kws.foldl (scanKeyword caseSensitive text) acc).details
        = acc.details
            ++ (kws.map (fun kw =>
                  ((findOccurrences caseSensitive kw text).take 3).map
                    (mkDetail text kw))).flatten := by
  intro kws
  induction kws with
  | nil => intro acc; simp
  | cons kw kws ih =>
    intro acc
    rw [List.foldl_cons, scanKeyword_def]
    by_cases h : (findOccurrences caseSensitive kw text).isEmpty
    · rw [if_pos h, ih]
      have h0 : findOccurrences caseSensitive kw text = [] := by
        simpa using h
      simp [h0]
    · rw [if_neg h, ih]
      simp

theorem foldl_scan_matched_mem (caseSensitive : Bool) (text : List Char) :
    ∀ (kws : List (List Char)) (acc : ScanAcc) (kw' : List Char),
      kw' ∈ (kws.foldl (scanKeyword caseSensitive text) acc).matched
        ↔ kw' ∈ acc.matched
            ∨ (kw' ∈ kws ∧ findOccurrences caseSensitive kw' text ≠ []) := by
  intro kws
  induction kws with
  | nil => intro acc kw'; simp
  | cons kw kws ih =>
    intro acc kw'
    rw [List.foldl_cons, scanKeyword_def]
    by_cases h : (findOccurrences caseSensitive kw text).isEmpty
    · rw [if_pos h, ih]
      have h0 : findOccurrences caseSensitive kw text = [] := by
        simpa using h
      constructor
      · rintro (hm | ⟨hmem, hne⟩)
        · exact Or.inl hm
        · exact Or.inr ⟨List.mem_cons_of_mem kw hmem, hne⟩
      · rintro (hm | ⟨hmem, hne⟩)
        · exact Or.inl hm
        · rcases List.mem_cons.mp hmem with rfl | hmem'
          · exact absurd h0 hne
          · exact Or.inr ⟨hmem', hne⟩
    · rw [if_neg h, ih]
      have h0 : findOccurrences caseSensitive kw text ≠ [] := by
        intro hc
        exact h (by simp [hc])
      constructor
      · rintro (hm | ⟨hmem, hne⟩)
        · rcases mem_insertKeyword.mp hm with hm' | rfl
          · exact Or.inl hm'
          · exact Or.inr ⟨List.mem_cons_self _ _, h0⟩
        · exact Or.inr ⟨List.mem_cons_of_mem kw hmem, hne⟩
      · rintro (hm | ⟨hmem, hne⟩)
        · exact Or.inl (mem_insertKeyword.mpr (Or.inl hm))
        · rcases List.mem_cons.mp hmem with rfl | hmem'
          · exact Or.inl (mem_insertKeyword.mpr (Or.inr rfl))
          · exact Or.inr ⟨hmem', hne⟩

theorem foldl_scan_matched_nodup (caseSensitive : Bool) (text : List Char) :
    ∀ (kws : List (List Char)) (acc : ScanAcc),
      acc.matched.Nodup → (kws.foldl (scanKeyword caseSensitive text) acc).matched.Nodup := by
  intro kws
  induction kws with
  | nil => intro acc h; simpa using h
  | cons kw kws ih =>
    intro acc hacc
    rw [List.foldl_cons, scanKeyword_def]
    by_cases h : (findOccurrences caseSensitive kw text).isEmpty
    · rw [if_pos h]
      exact ih acc hacc
    · rw [if_neg h]
      exact ih _ (nodup_insertKeyword hacc)

theorem foldl_scan_matched_le_total (caseSensitive : Bool) (text : List Char) :
    ∀ (kws : List (List Char)) (acc : ScanAcc),
      acc.matched.length ≤ acc.total
        → (kws.foldl (scanKeyword caseSensitive text) acc).matched.length
            ≤ (kws.foldl (scanKeyword caseSensitive text) acc).total := by
  intro kws
  induction kws with
  | nil => intro acc h; simpa using h
  | cons kw kws ih =>
    intro acc hacc
    rw [List.foldl_cons, scanKeyword_def]
    by_cases h : (findOccurrences caseSensitive kw text).isEmpty
    · rw [if_pos h]
      exact ih acc hacc
    · rw [if_neg h]
      apply ih
      have h1 : (insertKeyword acc.matched kw).length ≤ acc.matched.length + 1 :=
        length_insertKeyword_le
      have h2 : 1 ≤ (findOccurrences caseSensitive kw text).length := by
        have hne : findOccurrences caseSensitive kw text ≠ [] := by
          intro hc
          exact h (by simp [hc])
        exact List.length_pos.mpr hne
      simp only
      omega

theorem foldl_scan_skip (caseSensitive : Bool) (text : List Char) :
    ∀ (kws : List (List Char)) (acc : ScanAcc),
      (∀ kw ∈ kws, findOccurrences caseSensitive kw text = [])
        → kws.foldl (scanKeyword caseSensitive text) acc = acc := by
  intro kws
  induction kws with
  | nil => intro acc _; rfl
  | cons kw kws ih =>
    intro acc hall
    rw [List.foldl_cons, scanKeyword_def]
    have h0 : findOccurrences caseSensitive kw text = [] :=
      hall kw (List.mem_cons_self _ _)
    rw [if_pos (by simp [h0])]
    exact ih acc (fun k hk => hall k (List.mem_cons_of_mem kw hk))

/-! ### Counting detail entries per keyword -/

theorem length_filter_keyword_map (text k kw : List Char) (ps : List Nat) :
    ((ps.map (mkDetail text k)).filter (fun d => d.keyword == kw)).length
      = if k = kw then ps.length else 0 := by
  induction ps with
  | nil => simp
  | cons p ps ih =>
    by_cases hk : k = kw
    · simp only [List.map_cons, List.filter_cons, mkDetail, hk, if_pos] at ih ⊢
      simp [ih, hk]
    · simp only [List.map_cons, List.filter_cons, mkDetail] at ih ⊢
      simp [ih, hk]

theorem flatten_filter_count (caseSensitive : Bool) (text : List Char)
    (kws : List (List Char)) (kw : List Char) :
    (((kws.map (fun k =>
          ((findOccurrences caseSensitive k text).take 3).map (mkDetail text k))).flatten).filter
        (fun d => d.keyword == kw)).length
      = (kws.map (fun k =>
          if k = kw then ((findOccurrences caseSensitive k text).take 3).length else 0)).sum := by
  induction kws with
  | nil => simp
  | cons k kws ih =>
    rw [List.map_cons, List.flatten_cons, List.filter_append, List.length_append,
      length_filter_keyword_map, ih, List.map_cons, List.sum_cons]

theorem sum_if_eq_count (kws : List (List Char)) (kw : List Char) (f : List Char → Nat) :
    (kws.map (fun k => if k = kw then f k else 0)).sum = kws.count kw * f kw := by
  induction kws with
  | nil => simp
  | cons k kws ih =>
    by_cases hk : k = kw
    · subst hk
      rw [List.map_cons, List.sum_cons, ih, List.count_cons_self, if_pos rfl, Nat.succ_mul]
      omega
    · have hk' : ¬ kw = k := fun hc => hk hc.symm
      rw [List.map_cons, List.sum_cons, ih, if_neg hk, List.count_cons]
      simp [hk', hk]

theorem sum_map_split (kws : List (List Char)) (kw : List Char) (f : List Char → Nat) :
    (kws.map f).sum
      = kws.count kw * f kw + ((kws.filter (fun k => k ≠ kw)).map f).sum := by
  induction kws with
  | nil => simp
  | cons k kws ih =>
    by_cases hk : k = kw
    · subst hk
      rw [List.map_cons, List.sum_cons, ih, List.count_cons_self, Nat.succ_mul]
      have hfilter : List.filter (fun x => x ≠ k) (k :: kws)
          = List.filter (fun x => x ≠ k) kws := by
        rw [List.filter_cons]
        simp
      rw [hfilter]
      ring
    · have hkne : (k == kw) = false := by simp [hk]
      rw [List.map_cons, List.sum_cons, ih, List.count_cons, hkne]
      have hfilter : List.filter (fun x => x ≠ kw) (k :: kws)
          = k :: List.filter (fun x => x ≠ kw) kws := by
        rw [List.filter_cons]
        simp [hk]
      rw [hfilter, List.map_cons, List.sum_cons]
      simp
      ring

/-! ### The batch driver as a filterMap -/

theorem foldl_batch (caseSensitive : Bool) (keywords : List (List Char)) :
    ∀ (texts : List (List (String × List Char))) (acc : List (List (String × PyVal))),
      texts.foldl (batchStep caseSensitive keywords) acc
        = acc ++ texts.filterMap (batchEntry caseSensitive keywords) := by
  intro texts
  induction texts with
  | nil => intro acc; simp
  | cons info texts ih =>
    intro acc
    rw [List.foldl_cons, List.filterMap_cons]
    by_cases hskip : skipDoc info
    · have hstep : batchStep caseSensitive keywords acc info = acc := by
        simp [batchStep, hskip]
      have hentry : batchEntry caseSensitive keywords info = none := by
        simp [batchEntry, hskip]
      rw [hstep, hentry, ih]
    · by_cases hfound : (scan_text caseSensitive keywords (contentOf info)).matches_found
      · have hstep : batchStep caseSensitive keywords acc info
            = acc ++ [dictMerge (injectDoc info)
                (resultFields (scan_text caseSensitive keywords (contentOf info)))] := by
          simp [batchStep, hskip, hfound]
        have hentry : batchEntry caseSensitive keywords info
            = some (dictMerge (injectDoc info)
                (resultFields (scan_text caseSensitive keywords (contentOf info)))) := by
          simp [batchEntry, hskip, hfound]
        rw [hstep, hentry, ih]
        simp
      · have hstep : batchStep caseSensitive keywords acc info = acc := by
          simp [batchStep, hskip, hfound]
        have hentry : batchEntry caseSensitive keywords info = none := by
          simp [batchEntry, hskip, hfound]
        rw [hstep, hentry, ih]

theorem scan_multiple_texts_eq_filterMap (caseSensitive : Bool)
    (keywords : List (List Char)) (texts : List (List (String × List Char))) :
    scan_multiple_texts caseSensitive keywords texts
      = texts.filterMap (batchEntry caseSensitive keywords) := by
  rw [scan_multiple_texts, foldl_batch]
  rfl

/-! ### The exception channel is never used -/

theorem ok_bind {e α β : Type} (x : α) (f : α → Except e β) :
    (Except.ok x >>= f : Except e β) = f x := rfl

theorem scanKeywordExc_ok (caseSensitive : Bool) (text : List Char) (acc : ScanAcc)
    (kw : List Char) :
    scanKeywordExc caseSensitive text acc kw
      = Except.ok (scanKeyword caseSensitive text acc kw) := by
  by_cases h : (findOccurrences caseSensitive kw text).isEmpty <;>
    simp [scanKeywordExc, scanKeyword, tryCompile, h]

theorem foldlM_scan_ok (caseSensitive : Bool) (text : List Char) :
    ∀ (kws : List (List Char)) (acc : ScanAcc),
      List.foldlM (scanKeywordExc caseSensitive text) acc kws
        = Except.ok (kws.foldl (scanKeyword caseSensitive text) acc) := by
  intro kws
  induction kws with
  | nil => intro acc; rfl
  | cons kw kws ih =>
    intro acc
    rw [List.foldlM_cons, scanKeywordExc_ok, List.foldl_cons]
    exact ih _

theorem scan_text_exc_ok (caseSensitive : Bool) (keywords : List (List Char))
    (text : List Char) :
    scan_text_exc caseSensitive keywords text
      = Except.ok (scan_text caseSensitive keywords text) := by
  rw [scan_text_exc, scan_text]
  by_cases h : (text.isEmpty || keywords.isEmpty) = true
  · rw [if_pos h, if_pos h]
  · rw [if_neg h, if_neg h]
    show (List.foldlM (scanKeywordExc caseSensitive text) ⟨[], 0, []⟩ keywords
        >>= fun acc => Except.ok _) = _
    rw [foldlM_scan_ok]
    rfl

theorem batchStepExc_ok (caseSensitive : Bool) (keywords : List (List Char))
    (results : List (List (String × PyVal))) (info : List (String × List Char)) :
    batchStepExc caseSensitive keywords results info
      = Except.ok (batchStep caseSensitive keywords results info) := by
  rw [batchStepExc, batchStep]
  by_cases hskip : skipDoc info
  · rw [if_pos hskip, if_pos hskip]
  · rw [if_neg hskip, if_neg hskip]
    show (scan_text_exc caseSensitive keywords (contentOf info) >>= fun r => _) = _
    rw [scan_text_exc_ok]
    by_cases hf : (scan_text caseSensitive keywords (contentOf info)).matches_found <;>
      simp [ok_bind, hf]

theorem foldlM_batch_ok (caseSensitive : Bool) (keywords : List (List Char)) :
    ∀ (texts : List (List (String × List Char))) (acc : List (List (String × PyVal))),
      List.foldlM (batchStepExc caseSensitive keywords) acc texts
        = Except.ok (texts.foldl (batchStep caseSensitive keywords) acc) := by
  intro texts
  induction texts with
  | nil => intro acc; rfl
  | cons info texts ih =>
    intro acc
    rw [List.foldlM_cons, batchStepExc_ok, List.foldl_cons]
    exact ih _

theorem scan_multiple_texts_exc_ok (caseSensitive : Bool) (keywords : List (List Char))
    (texts : List (List (String × List Char))) :
    scan_multiple_texts_exc caseSensitive keywords texts
      = Except.ok (scan_multiple_texts caseSensitive keywords texts) := by
  rw [scan_multiple_texts_exc, scan_multiple_texts, foldlM_batch_ok]

/-! ### The non-trivial branch of the scanner -/

theorem scan_text_def_of_ne (caseSensitive : Bool) (keywords : List (List Char))
    (text : List Char) (ht : text ≠ []) (hk : keywords ≠ []) :
    scan_text caseSensitive keywords text =
      (let acc := keywords.foldl (scanKeyword caseSensitive text) ⟨[], 0, []⟩
       { matches_found := decide (0 < acc.matched.length)
         matched_keywords := sortKeywords acc.matched
         match_count := acc.matched.length
         total_occurrences := acc.total
         match_details := acc.details }) := by
  rw [scan_text, if_neg]
  simp [isEmpty_false_of_ne_nil ht, isEmpty_false_of_ne_nil hk]

/-! ### The loader never parses a non-blank upload to nothing -/

theorem splitLines_ne_nil (content : List Char) : splitLines content ≠ [] := by
  cases content with
  | nil => simp [splitLines]
  | cons c rest =>
    rw [splitLines]
    by_cases hc : c == '\n'
    · simp [hc]
    · simp only [hc]
      cases h : splitLines rest <;> simp

theorem all_newline_of_nonBlankLines_nil (content : List Char)
    (h : nonBlankLines content = []) : ∀ c ∈ content, c = '\n' := by
  induction content with
  | nil => simp
  | cons c rest ih =>
    rw [nonBlankLines, splitLines] at h
    by_cases hc : c == '\n'
    · simp only [hc, if_pos] at h
      rw [List.filter_cons] at h
      simp only [List.isEmpty_nil, Bool.not_true] at h
      have hrest : nonBlankLines rest = [] := by
        rw [nonBlankLines]
        simpa using h
      intro x hx
      rcases List.mem_cons.mp hx with rfl | hx'
      · simpa using hc
      · exact ih hrest x hx'
    · exfalso
      simp only [hc] at h
      rcases hr : splitLines rest with _ | ⟨l, ls⟩
      · exact splitLines_ne_nil rest hr
      · rw [hr] at h
        simp at h

theorem stripStr_eq_nil_of_all_ws {s : List Char}
    (h : ∀ c ∈ s, Char.isWhitespace c) : stripStr s = [] := by
  have h1 : s.dropWhile Char.isWhitespace = [] := by
    rw [List.dropWhile_eq_nil_iff]
    exact fun a ha => h a ha
  rw [stripStr, h1]
  simp

theorem nonBlankLines_ne_nil {content : List Char} (h : stripStr content ≠ []) :
    nonBlankLines content ≠ [] := by
  intro hc
  apply h
  apply stripStr_eq_nil_of_all_ws
  intro c hcmem
  have hcn : c = '\n' := all_newline_of_nonBlankLines_nil content hc c hcmem
  rw [hcn]
  decide

theorem count_eq_one_of_nodup_mem {α : Type} [BEq α] [LawfulBEq α] {l : List α} {a : α}
    (hnodup : l.Nodup) (hmem : a ∈ l) : l.count a = 1 := by
  induction l with
  | nil => simp at hmem
  | cons b bs ih =>
    rw [List.count_cons]
    rcases List.mem_cons.mp hmem with rfl | hmem'
    · have hnotin : a ∉ bs := (List.nodup_cons.mp hnodup).1
      rw [List.count_eq_zero.mpr hnotin]
      simp
    · have hbs : bs.Nodup := (List.nodup_cons.mp hnodup).2
      have hne : ¬ b = a := by
        intro hc
        subst hc
        exact (List.nodup_cons.mp hnodup).1 hmem'
      rw [ih hbs hmem']
      simp [hne]

theorem perm_count_eq {α : Type} [BEq α] {l1 l2 : List α} (h : l1.Perm l2) (a : α) :
    l1.count a = l2.count a := by
  have hc := h.countP_eq (fun x => x == a)
  simpa [List.count] using hc

theorem scan_text_eq_zero (caseSensitive : Bool) (keywords : List (List Char))
    (text : List Char) (h : text = [] ∨ keywords = []) :
    scan_text caseSensitive keywords text = zeroResult := by
  rcases h with rfl | rfl
  · rw [scan_text]
    simp
  · rw [scan_text]
    simp

/-! ## The claims -/

/-- Claim C9: if the text is empty or the keyword list is empty, `scan_text`
returns the zero-value `ScanResult` (`matches_found = false`, both counters 0,
empty `matched_keywords` and `match_details`), regardless of the other
argument. -/
theorem claim_C9 (caseSensitive : Bool) (keywords : List (List Char))
    (text : List Char) (h : text = [] ∨ keywords = []) :
    scan_text caseSensitive keywords text = zeroResult :=
  scan_text_eq_zero caseSensitive keywords text h

/-- Witness for C9 at a concrete input: empty text, non-empty keyword list. -/
theorem claim_C9_witness :
    (([] : List Char) = [] ∨ ([['a']] : List (List Char)) = [])
      ∧ scan_text false [['a']] [] = zeroResult :=
  ⟨Or.inl rfl, claim_C9 false [['a']] [] (Or.inl rfl)⟩

/-- Claim C5: every `ScanResult` of `scan_text` has `matched_keywords` sorted
ascending in the lexicographic order on the original keyword strings and free
of duplicates, `match_count` equal to the number of matched keywords, and
`total_occurrences ≥ match_count`. -/
theorem claim_C5 (caseSensitive : Bool) (keywords : List (List Char))
    (text : List Char) :
    List.Sorted kwLe (scan_text caseSensitive keywords text).matched_keywords
      ∧ (scan_text caseSensitive keywords text).matched_keywords.Nodup
      ∧ (scan_text caseSensitive keywords text).match_count
          = (scan_text caseSensitive keywords text).matched_keywords.length
      ∧ (scan_text caseSensitive keywords text).match_count
          ≤ (scan_text caseSensitive keywords text).total_occurrences := by
  by_cases ht : text = []
  · rw [scan_text_eq_zero _ _ _ (Or.inl ht)]
    simp [zeroResult]
  by_cases hk : keywords = []
  · rw [scan_text_eq_zero _ _ _ (Or.inr hk)]
    simp [zeroResult]
  rw [scan_text_def_of_ne _ _ _ ht hk]
  have hnodup : (keywords.foldl (scanKeyword caseSensitive text) ⟨[], 0, []⟩).matched.Nodup :=
    foldl_scan_matched_nodup caseSensitive text keywords ⟨[], 0, []⟩ List.nodup_nil
  refine ⟨?_, ?_, ?_, ?_⟩
  · exact sortKeywords_sorted _
  · exact (sortKeywords_perm _).symm.nodup hnodup
  · exact ((sortKeywords_perm _).length_eq).symm
  · exact foldl_scan_matched_le_total caseSensitive text keywords ⟨[], 0, []⟩ (by simp)

/-- Claim C7: the batch driver equals the per-document filter-and-merge map:
a document is omitted exactly when it carries an error marker, has missing or
empty content, or its scan finds no match; the remaining documents appear in
input order as `{**text_info, **scan_result}` (`dictMerge`, scan-result fields
winning on key collision). -/
theorem claim_C7 (caseSensitive : Bool) (keywords : List (List Char))
    (texts : List (List (String × List Char))) :
    scan_multiple_texts caseSensitive keywords texts
      = texts.filterMap (batchEntry caseSensitive keywords) :=
  scan_multiple_texts_eq_filterMap caseSensitive keywords texts

/-- Claim C8: with the Python exception channel made explicit, the scan engine
and the batch driver always return `Except.ok` — no input (empty text and
empty keyword list included) makes them raise; no-match results are normal
values. -/
theorem claim_C8 (caseSensitive : Bool) (keywords : List (List Char))
    (text : List Char) (texts : List (List (String × List Char))) :
    scan_text_exc caseSensitive keywords text
        = Except.ok (scan_text caseSensitive keywords text)
      ∧ scan_multiple_texts_exc caseSensitive keywords texts
        = Except.ok (scan_multiple_texts caseSensitive keywords texts) :=
  ⟨scan_text_exc_ok caseSensitive keywords text,
   scan_multiple_texts_exc_ok caseSensitive keywords texts⟩

/-- Claim C4: every match detail's context is built as `"..." + core + "..."`
where the core is obtained from the clamped window
`text[max(0, start - 50) : min(len(text), end + 50)]` only (each core
character comes from that window, with `'\n'` characters turned into spaces),
and the whole context string contains no raw newline. -/
theorem claim_C4 (caseSensitive : Bool) (keywords : List (List Char))
    (text : List Char) (d : MatchDetail)
    (hd : d ∈ (scan_text caseSensitive keywords text).match_details) :
    (∀ c ∈ d.context, c ≠ '\n')
      ∧ d.context
          = dots ++ mkContext text d.position (d.position + d.keyword.length) ++ dots
      ∧ ∀ c ∈ mkContext text d.position (d.position + d.keyword.length),
          ∃ c' ∈ slicePy text (d.position - 50)
              (min text.length (d.position + d.keyword.length + 50)),
            c = (if c' == '\n' then ' ' else c') := by
  by_cases ht : text = []
  · rw [scan_text_eq_zero _ _ _ (Or.inl ht)] at hd
    simp [zeroResult] at hd
  by_cases hk : keywords = []
  · rw [scan_text_eq_zero _ _ _ (Or.inr hk)] at hd
    simp [zeroResult] at hd
  rw [scan_text_def_of_ne _ _ _ ht hk] at hd
  simp only at hd
  rw [foldl_scan_details] at hd
  simp only [List.nil_append] at hd
  rw [List.mem_flatten] at hd
  rcases hd with ⟨block, hblock, hdmem⟩
  rcases List.mem_map.mp hblock with ⟨kw, _, rfl⟩
  rcases List.mem_map.mp hdmem with ⟨pos, _, rfl⟩
  refine ⟨?_, rfl, ?_⟩
  · intro c hc
    rcases List.mem_append.mp hc with hc' | hc'
    · rcases List.mem_append.mp hc' with hc'' | hc''
      · intro hcontra
        rw [hcontra] at hc''
        simp [dots] at hc''
      · exact ne_newline_of_mem_mkContext hc''
    · intro hcontra
      rw [hcontra] at hc'
      simp [dots] at hc'
  · intro c hc
    exact mem_mkContext hc

/-- Witness for C4 at a concrete input: the single detail produced by
scanning `"zab"` for `"ab"` case-sensitively. -/
theorem claim_C4_witness :
    (mkDetail ['z', 'a', 'b'] ['a', 'b'] 1)
        ∈ (scan_text true [['a', 'b']] ['z', 'a', 'b']).match_details
      ∧ ∀ c ∈ (mkDetail ['z', 'a', 'b'] ['a', 'b'] 1).context, c ≠ '\n' :=
  ⟨by simp [scan_text, scanKeyword, tryCompile, findOccurrences, fold, occFrom,
      startsWith, insertKeyword, sortKeywords],
   (claim_C4 true [['a', 'b']] ['z', 'a', 'b'] _
      (by simp [scan_text, scanKeyword, tryCompile, findOccurrences, fold, occFrom,
        startsWith, insertKeyword, sortKeywords])).1⟩

/-- Claim C2: for a non-empty text and a keyword list in which the keyword
`kw` has exactly one literal occurrence (at true offset `p` of the original,
unmodified text) and no other listed keyword occurs at all, the scan reports
`matches_found = true`, `match_count = 1`, `total_occurrences = 1`, and a
single match detail whose position is exactly `p`.  (`kw ≠ []` reflects the
data model: a keyword is a non-empty trimmed string.) -/
theorem claim_C2 (caseSensitive : Bool) (text kw : List Char)
    (l1 l2 : List (List Char)) (p : Nat)
    (htext : text ≠ []) (hkw : kw ≠ [])
    (hocc : occurrencesAll caseSensitive kw text = [p])
    (hothers : ∀ kw' ∈ l1 ++ l2, occurrencesAll caseSensitive kw' text = []) :
    (scan_text caseSensitive (l1 ++ kw :: l2) text).matches_found = true
      ∧ (scan_text caseSensitive (l1 ++ kw :: l2) text).match_count = 1
      ∧ (scan_text caseSensitive (l1 ++ kw :: l2) text).total_occurrences = 1
      ∧ (scan_text caseSensitive (l1 ++ kw :: l2) text).match_details
          = [mkDetail text kw p]
      ∧ (mkDetail text kw p).position = p := by
  have hfind : findOccurrences caseSensitive kw text = [p] :=
    findOccurrences_eq_single hkw hocc
  have hother : ∀ kw' ∈ l1 ++ l2, findOccurrences caseSensitive kw' text = [] :=
    fun kw' h => findOccurrences_eq_nil htext (hothers kw' h)
  have hkws : (l1 ++ kw :: l2) ≠ [] := by simp
  have hacc : (l1 ++ kw :: l2).foldl (scanKeyword caseSensitive text) ⟨[], 0, []⟩
      = ⟨[kw], 1, [mkDetail text kw p]⟩ := by
    rw [List.foldl_append]
    rw [foldl_scan_skip caseSensitive text l1 ⟨[], 0, []⟩
      (fun k hk => hother k (List.mem_append_left _ hk))]
    rw [List.foldl_cons, scanKeyword_def, hfind]
    rw [if_neg (by simp)]
    rw [foldl_scan_skip caseSensitive text l2 _
      (fun k hk => hother k (List.mem_append_right _ hk))]
    simp [insertKeyword]
  rw [scan_text_def_of_ne _ _ _ htext hkws]
  simp only [hacc]
  refine ⟨?_, ?_, ?_, ?_, ?_⟩ <;> first | rfl | trivial

/-- Witness for C2 at a concrete input: text `"xab"`, matching keyword `"ab"`
at offset 1, plus a non-occurring keyword `"q"`. -/
theorem claim_C2_witness :
    ((['x', 'a', 'b'] : List Char) ≠ []
        ∧ (['a', 'b'] : List Char) ≠ []
        ∧ occurrencesAll true ['a', 'b'] ['x', 'a', 'b'] = [1]
        ∧ (∀ kw' ∈ [['q']] ++ ([] : List (List Char)),
            occurrencesAll true kw' ['x', 'a', 'b'] = []))
      ∧ (scan_text true ([['q']] ++ ['a', 'b'] :: []) ['x', 'a', 'b']).total_occurrences
          = 1 := by
  refine ⟨⟨by decide, by decide, by decide, by decide⟩, ?_⟩
  exact (claim_C2 true ['x', 'a', 'b'] ['a', 'b'] [['q']] [] 1
    (by decide) (by decide) (by decide) (by decide)).2.2.1

/-- Claim C3: a keyword occurring 5 times (non-overlapping) in the text and
listed once contributes 5 to `total_occurrences` — the total is the full sum
over all listed keywords, not capped — while `match_details` keeps only 3
entries for it. -/
theorem claim_C3 (caseSensitive : Bool) (keywords : List (List Char))
    (text kw : List Char)
    (htext : text ≠ [])
    (hcount : keywords.count kw = 1)
    (hocc : (findOccurrences caseSensitive kw text).length = 5) :
    (scan_text caseSensitive keywords text).total_occurrences
        = 5 + ((keywords.filter (fun k => k ≠ kw)).map
            (fun k => (findOccurrences caseSensitive k text).length)).sum
      ∧ ((scan_text caseSensitive keywords text).match_details.filter
            (fun d => d.keyword == kw)).length = 3 := by
  have hkws : keywords ≠ [] := by
    intro h
    rw [h] at hcount
    simp at hcount
  rw [scan_text_def_of_ne _ _ _ htext hkws]
  simp only
  constructor
  · rw [foldl_scan_total,
      sum_map_split keywords kw (fun k => (findOccurrences caseSensitive k text).length)]
    simp [hcount, hocc]
  · rw [foldl_scan_details]
    simp only [List.nil_append]
    rw [flatten_filter_count, sum_if_eq_count, hcount]
    simp [List.length_take, hocc]

/-- Witness for C3 at a concrete input: keyword `"a"` occurring 5 times in
`"aaaaa"`. -/
theorem claim_C3_witness :
    ((['a', 'a', 'a', 'a', 'a'] : List Char) ≠ []
        ∧ ([['a']] : List (List Char)).count ['a'] = 1
        ∧ (findOccurrences true ['a'] ['a', 'a', 'a', 'a', 'a']).length = 5)
      ∧ ((scan_text true [['a']] ['a', 'a', 'a', 'a', 'a']).match_details.filter
            (fun d => d.keyword == ['a'])).length = 3 := by
  refine ⟨⟨by simp, by decide, by simp [findOccurrences, fold, occFrom, startsWith]⟩, ?_⟩
  exact (claim_C3 true [['a']] ['a', 'a', 'a', 'a', 'a'] ['a'] (by simp) (by decide)
    (by simp [findOccurrences, fold, occFrom, startsWith])).2

/-- Claim C10: a keyword listed `k` times with `n ≥ 1` non-overlapping
occurrences is counted once in `matched_keywords` (hence once in
`match_count`), contributes `k * n` to `total_occurrences` on top of the other
keywords' occurrence counts, and owns `k * min n 3` entries of
`match_details` — every repetition of the keyword re-adds its occurrences and
details. -/
theorem claim_C10 (caseSensitive : Bool) (keywords : List (List Char))
    (text kw : List Char) (k n : Nat)
    (htext : text ≠ []) (hk1 : 1 ≤ k) (hn1 : 1 ≤ n)
    (hcount : keywords.count kw = k)
    (hocc : (findOccurrences caseSensitive kw text).length = n) :
    (scan_text caseSensitive keywords text).matched_keywords.count kw = 1
      ∧ ((scan_text caseSensitive keywords text).match_details.filter
            (fun d => d.keyword == kw)).length = k * min n 3
      ∧ (scan_text caseSensitive keywords text).total_occurrences
          = k * n + ((keywords.filter (fun k2 => k2 ≠ kw)).map
              (fun k2 => (findOccurrences caseSensitive k2 text).length)).sum := by
  have hkws : keywords ≠ [] := by
    intro h
    rw [h] at hcount
    simp at hcount
    omega
  have hmem : kw ∈ keywords := by
    have hpos : 0 < keywords.count kw := by omega
    exact List.count_pos_iff.mp hpos
  have hoccne : findOccurrences caseSensitive kw text ≠ [] := by
    intro hc
    rw [hc] at hocc
    simp at hocc
    omega
  rw [scan_text_def_of_ne _ _ _ htext hkws]
  simp only
  refine ⟨?_, ?_, ?_⟩
  · have hnodup :=
      foldl_scan_matched_nodup caseSensitive text keywords ⟨[], 0, []⟩ List.nodup_nil
    have hmem' :
        kw ∈ (keywords.foldl (scanKeyword caseSensitive text) ⟨[], 0, []⟩).matched := by
      rw [foldl_scan_matched_mem]
      exact Or.inr ⟨hmem, hoccne⟩
    have hperm :=
      sortKeywords_perm (keywords.foldl (scanKeyword caseSensitive text) ⟨[], 0, []⟩).matched
    rw [perm_count_eq hperm kw]
    exact count_eq_one_of_nodup_mem hnodup hmem'
  · rw [foldl_scan_details]
    simp only [List.nil_append]
    rw [flatten_filter_count, sum_if_eq_count, hcount]
    rw [List.length_take, hocc, Nat.min_comm]
  · rw [foldl_scan_total,
      sum_map_split keywords kw (fun k2 => (findOccurrences caseSensitive k2 text).length)]
    simp [hcount, hocc]

/-- Witness for C10 at a concrete input: keyword `"a"` listed twice, occurring
twice in `"aa"` — the total is `2 * 2 = 4` and the details count is
`2 * min 2 3 = 4`. -/
theorem claim_C10_witness :
    ((['a', 'a'] : List Char) ≠ []
        ∧ 1 ≤ 2
        ∧ ([['a'], ['a']] : List (List Char)).count ['a'] = 2
        ∧ (findOccurrences true ['a'] ['a', 'a']).length = 2)
      ∧ (scan_text true [['a'], ['a']] ['a', 'a']).total_occurrences
          = 2 * 2 + ((([['a'], ['a']] : List (List Char)).filter
              (fun k2 => k2 ≠ ['a'])).map
              (fun k2 => (findOccurrences true k2 ['a', 'a']).length)).sum := by
  refine ⟨⟨by simp, by decide, by decide,
    by simp [findOccurrences, fold, occFrom, startsWith]⟩, ?_⟩
  exact (claim_C10 true [['a'], ['a']] ['a', 'a'] ['a'] 2 2 (by simp) (by decide)
    (by decide) (by decide) (by simp [findOccurrences, fold, occFrom, startsWith])).2.2

theorem load_eq_blank (content : List Char) (h : content = [] ∨ stripStr content = []) :
    load_keywords_from_csv content = Except.error LoadError.emptyContent := by
  rw [load_keywords_from_csv, if_pos]
  rcases h with rfl | h
  · simp
  · simp [h]

theorem load_eq_of_rows (content hd : List Char) (rows : List (List Char))
    (hblank : ¬ (content = [] ∨ stripStr content = []))
    (hnb : nonBlankLines content = hd :: rows) :
    load_keywords_from_csv content
      = (if rows.isEmpty then Except.error LoadError.noData
         else if ((dropNaCells rows).filterMap (fun k =>
                  let s := stripStr k
                  if s.isEmpty then none else some s)).isEmpty
           then Except.error LoadError.noValidKeywords
           else Except.ok ((dropNaCells rows).filterMap (fun k =>
                  let s := stripStr k
                  if s.isEmpty then none else some s))) := by
  rw [load_keywords_from_csv, if_neg, hnb]
  · by_cases hr : rows.isEmpty <;> simp [hr]
  · intro hc
    apply hblank
    simp only [Bool.or_eq_true, List.isEmpty_iff] at hc
    exact hc

/-- Claim C6: on the one-column tabular format, the keyword loader fails
exactly when the upload is empty or blank, parses to zero data rows, or — after
dropping the cells `read_csv` reads as missing (the default NA sentinels) and
trimming — yields zero non-empty keywords, and the three reachable failure
conditions carry pairwise distinct errors (the fourth message of the source,
"no columns", cannot be reached: any non-blank one-column upload parses to at
least one column); on every other input it returns a non-empty keyword
sequence without raising.  The success value is stated existentially because
pandas' dtype coercion can re-render an all-numeric column's cells; the
error/ok outcome is rendering-independent (see the keyword-loading section
comment). -/
theorem claim_C6 (content : List Char) :
    ((content = [] ∨ stripStr content = []) →
        load_keywords_from_csv content = Except.error LoadError.emptyContent)
      ∧ (¬ (content = [] ∨ stripStr content = []) → parsedRows content = [] →
          load_keywords_from_csv content = Except.error LoadError.noData)
      ∧ (¬ (content = [] ∨ stripStr content = []) → parsedRows content ≠ [] →
          trimmedKeywords content = [] →
          load_keywords_from_csv content = Except.error LoadError.noValidKeywords)
      ∧ (¬ (content = [] ∨ stripStr content = []) → parsedRows content ≠ [] →
          trimmedKeywords content ≠ [] →
          ∃ kws, load_keywords_from_csv content = Except.ok kws ∧ kws ≠ [])
      ∧ LoadError.emptyContent ≠ LoadError.noData
      ∧ LoadError.emptyContent ≠ LoadError.noValidKeywords
      ∧ LoadError.noData ≠ LoadError.noValidKeywords := by
  refine ⟨fun h => load_eq_blank content h, ?_, ?_, ?_, by decide, by decide, by decide⟩
  · intro hblank hpr
    have hstrip : stripStr content ≠ [] := fun hc => hblank (Or.inr hc)
    rcases hnb : nonBlankLines content with _ | ⟨hd, rows⟩
    · exact absurd hnb (nonBlankLines_ne_nil hstrip)
    · have hrows : parsedRows content = rows := by
        rw [parsedRows, hnb]
        simp
      rw [load_eq_of_rows content hd rows hblank hnb, if_pos]
      rw [hrows] at hpr
      simp [hpr]
  · intro hblank hpr htrim
    have hstrip : stripStr content ≠ [] := fun hc => hblank (Or.inr hc)
    rcases hnb : nonBlankLines content with _ | ⟨hd, rows⟩
    · exact absurd hnb (nonBlankLines_ne_nil hstrip)
    · have hrows : parsedRows content = rows := by
        rw [parsedRows, hnb]
        simp
      have htrim' : trimmedKeywords content
          = (dropNaCells rows).filterMap (fun k =>
              let s := stripStr k
              if s.isEmpty then none else some s) := by
        rw [trimmedKeywords, hrows]
      rw [load_eq_of_rows content hd rows hblank hnb, if_neg, if_pos]
      · rw [← htrim', htrim]
        rfl
      · rw [hrows] at hpr
        simp [hpr]
  · intro hblank hpr htrim
    have hstrip : stripStr content ≠ [] := fun hc => hblank (Or.inr hc)
    rcases hnb : nonBlankLines content with _ | ⟨hd, rows⟩
    · exact absurd hnb (nonBlankLines_ne_nil hstrip)
    · have hrows : parsedRows content = rows := by
        rw [parsedRows, hnb]
        simp
      have htrim' : trimmedKeywords content
          = (dropNaCells rows).filterMap (fun k =>
              let s := stripStr k
              if s.isEmpty then none else some s) := by
        rw [trimmedKeywords, hrows]
      refine ⟨trimmedKeywords content, ?_, htrim⟩
      rw [load_eq_of_rows content hd rows hblank hnb, if_neg, if_neg, ← htrim']
      · rw [← htrim']
        intro hc
        rw [List.isEmpty_iff] at hc
        exact htrim hc
      · rw [hrows] at hpr
        simp [hpr]

/-- Witness for C6 at concrete inputs: a header-only upload parses to zero
data rows and is rejected with the distinct "no data" message, and an upload
whose only data cell is the NA sentinel `"NA"` is dropped by `.dropna()` and
rejected with the distinct "no valid keywords" message. -/
theorem claim_C6_witness :
    load_keywords_from_csv ("hdr".data) = Except.error LoadError.noData
      ∧ load_keywords_from_csv ("hdr\nNA".data)
          = Except.error LoadError.noValidKeywords :=
  ⟨(claim_C6 ("hdr".data)).2.1 (by decide) (by decide),
   (claim_C6 ("hdr\nNA".data)).2.2.1 (by decide) (by decide) (by decide)⟩

/-- Claim C1 is refuted by the code: loading the tabular input
`"kw1\nkw2\nkw1"` does not yield 3 keywords.  `pandas.read_csv`'s default
header inference consumes the first row as the column header, so the loader
returns only the remaining two first-column cells `["kw2", "kw1"]` (in order,
duplicates preserved), contradicting the claim's "no header detection, the
whole first column is taken literally". -/
theorem claim_C1 :
    load_keywords_from_csv ("kw1\nkw2\nkw1".data)
        = Except.ok ["kw2".data, "kw1".data]
      ∧ ¬ load_keywords_from_csv ("kw1\nkw2\nkw1".data)
          = Except.ok ["kw1".data, "kw2".data, "kw1".data] := by
  constructor
  · rfl
  · intro hc
    have h1 : load_keywords_from_csv ("kw1\nkw2\nkw1".data)
        = Except.ok ["kw2".data, "kw1".data] := rfl
    rw [h1] at hc
    have h2 : (["kw2".data, "kw1".data] : List (List Char))
        = ["kw1".data, "kw2".data, "kw1".data] := Except.ok.inj hc
    exact absurd h2 (by decide)

end OctoVision
